import Mathlib

/-!
Verification of the webborer crawler core (filter, worker, util, results
packages) against its natural-language specification.  Go strings are
modelled as Lean `String` (operating on the underlying `List Char`;
all characters relevant to the claims are ASCII, where Go's byte
indexing and Lean's character indexing coincide).  Go maps from string
to string-slice are modelled as association lists with Go's
zero-value-on-miss lookup.  Go panics are modelled by `Option`/`Except`
error results.
-/

namespace Webborer

/-! ## Character-list string primitives (Go `strings` package operations) -/

/-- Model of Go `strings.TrimRight(s, "/")` on the character list:
drop every trailing slash. -/
def trimRightSlashCh (l : List Char) : List Char :=
  (l.reverse.dropWhile (· == '/')).reverse

/-- Model of Go `strings.Split(s, "/")` on the character list: split
around every slash; the empty string yields one empty field. -/
def splitSlashCh : List Char → List (List Char)
  | [] => [[]]
  | c :: cs =>
    if c == '/' then [] :: splitSlashCh cs
    else
      match splitSlashCh cs with
      | [] => [[c]]
      | g :: gs => (c :: g) :: gs

/-- Model of Go `strings.Join(parts, "/")` on character lists. -/
def joinSlashCh : List (List Char) → List Char
  | [] => []
  | [g] => g
  | g :: gs => g ++ '/' :: joinSlashCh gs

/-- Model of Go `strings.LastIndex(s, "/")`: index of the last slash,
`none` when there is no slash (Go returns -1). -/
def lastIndexSlashCh : List Char → Option Nat
  | [] => none
  | c :: cs =>
    match lastIndexSlashCh cs with
    | some i => some (i + 1)
    | none => if c == '/' then some 0 else none

/-- Model of Go `strings.ToLower` restricted to ASCII (every string the
claims touch is ASCII). -/
def toLowerStr (s : String) : String :=
  ⟨s.data.map Char.toLower⟩

/-- Helper for `canonicalMIMEHeaderKey`: uppercase the first letter and
any letter following a hyphen, lowercase the rest. -/
def canonMIMEAux : Bool → List Char → List Char
  | _, [] => []
  | up, c :: cs =>
    let c2 := if up then c.toUpper else c.toLower
    c2 :: canonMIMEAux (c == '-') cs

/-- Model of Go `textproto.CanonicalMIMEHeaderKey` for valid token keys
(the only keys the claims use): canonical MIME capitalisation. -/
def canonicalMIMEHeaderKey (s : String) : String :=
  ⟨canonMIMEAux true s.data⟩

/-! ## Headers (Go `http.Header`, a `map[string][]string`) -/

/-- Header mapping: association list from header name to value list. -/
abbrev Headers : Type := List (String × List String)

/-- Go map indexing `m[k]`: the stored value, or the zero value (empty
slice) when the key is absent. -/
def mapGet (h : Headers) (k : String) : List String :=
  (List.lookup k h).getD []

/-- Model of Go `http.Header.Get(key)`: canonicalise the key, return the
first stored value or the empty string. -/
def headerGet (h : Headers) (key : String) : String :=
  match mapGet h (canonicalMIMEHeaderKey key) with
  | [] => ""
  | v :: _ => v

/-! ## URL data model (the fields of Go `net/url.URL` the core uses) -/

/-- Model of Go `url.URL`: the scheme, user info, host, path, raw query
and fragment components. -/
structure URL where
  scheme : String
  user : String
  host : String
  path : String
  rawQuery : String
  fragment : String
deriving DecidableEq, Repr

/-! ## util package (src/unnamed/part_001) -/

/-- Source `util.URLIsDir`: true iff the path is empty or its last byte
is a slash. -/
def URLIsDir (u : URL) : Bool :=
  if u.path.data.length == 0 then true
  else u.path.data.getLast? == some '/'

/-- Source `util.StringSliceContains`. -/
def StringSliceContains (haystack : List String) (needle : String) : Bool :=
  haystack.any (· == needle)

/-- Whether a path segment survives Go `path.Clean` unchanged: nonempty
and neither "." nor "..". -/
def goodSegCh (g : List Char) : Bool :=
  !(g == []) && !(g == ['.']) && !(g == ['.', '.'])

/-- Segment-level core of Go `path.Clean`: skip empty and "." elements,
let ".." pop the previous element (".." at the start is dropped on a
rooted path and kept on an unrooted one), keep everything else. -/
def cleanSegsAux (rooted : Bool) : List (List Char) → List (List Char) → List (List Char)
  | [], acc => acc.reverse
  | s :: rest, acc =>
    if s == [] || s == ['.'] then cleanSegsAux rooted rest acc
    else if s == ['.', '.'] then
      match acc with
      | [] =>
        if rooted then cleanSegsAux rooted rest []
        else cleanSegsAux rooted rest [['.', '.']]
      | a :: as =>
        if a == ['.', '.'] then cleanSegsAux rooted rest (['.', '.'] :: a :: as)
        else cleanSegsAux rooted rest as
    else cleanSegsAux rooted rest (s :: acc)

/-- Model of Go `path.Clean` (the Go standard library routine called by
`util.URLIsSubpath`; modelled at segment level per its documentation:
collapse multiple slashes, drop "." elements, resolve ".." elements,
return "." for an empty result and strip any trailing slash). -/
def pathCleanCh (l : List Char) : List Char :=
  if l == [] then ['.']
  else
    let rooted := l.head? == some '/'
    let cleaned := cleanSegsAux rooted (splitSlashCh l) []
    if cleaned == [] then (if rooted then ['/'] else ['.'])
    else if rooted then '/' :: joinSlashCh cleaned
    else joinSlashCh cleaned

/-- Source `util.URLIsSubpath`: scheme and host must match when set on
the parent, a parent path of "/" contains everything, and otherwise the
cleaned child path must equal the cleaned parent path or extend it at a
slash boundary. -/
def URLIsSubpath (parent child : URL) : Bool :=
  if parent.scheme != "" && child.scheme != parent.scheme then false
  else if parent.host != "" && child.host != parent.host then false
  else if parent.path == "/" then true
  else
    let pPath := pathCleanCh parent.path.data
    let cPath := pathCleanCh child.path.data
    if cPath.length < pPath.length then false
    else if cPath == pPath then true
    else if !(pPath.isPrefixOf cPath) then false
    else cPath[pPath.length]? == some '/'

/-- Source `util.getParentPathsString`: split the trimmed path on
slashes and join the first `i` fields for every `i` from 2 up to (not
including) the number of fields. -/
def getParentPathsString (childPath : String) : List String :=
  let splitPath := splitSlashCh (trimRightSlashCh childPath.data)
  (List.range' 2 (splitPath.length - 2)).map
    (fun i => (⟨joinSlashCh (splitPath.take i)⟩ : String))

/-- Source `util.GetParentPaths`: copies of the child URL whose paths
are the parent paths of the child's trailing-slash-trimmed path. -/
def GetParentPaths (child : URL) : List URL :=
  let childPath : String := ⟨trimRightSlashCh child.path.data⟩
  (getParentPathsString childPath).map (fun p => { child with path := p })

/-! ## Settings (the fields of `settings.ScanSettings` the core reads) -/

/-- Run modes from the settings package. -/
inductive RunMode where
  | enumeration
  | linkCheck
  | dotProduct
deriving DecidableEq, Repr

/-- Scan settings consumed by the worker (spec section 6). -/
structure ScanSettings where
  mangle : Bool
  method : String
  sleepTime : Nat
  runMode : RunMode
  spiderCodes : List Nat
deriving DecidableEq, Repr

/-! ## Task and Result data model -/

/-- Modelled from the spec: the Task struct of the task package (not
under src/): a pending probe carrying an absolute URL, an effective Host
header and extra request headers.  `Task.Copy` is modelled by Lean's
value semantics. -/
structure Task where
  url : URL
  host : String
  header : Headers
deriving DecidableEq, Repr

/-- HTTP response (the fields of Go `http.Response` the core reads). -/
structure Response where
  statusCode : Nat
  header : Headers
  contentLength : Int
deriving DecidableEq, Repr

/-- Modelled from the spec: the Result struct of the results package
(whose struct definition is not under src/): one probe outcome with
status code (0 when no response), length (-1 unknown), content type,
response headers, optional captured redirect, optional error and the
baseline group tag.  The Links set is not modelled (no claim reads it). -/
structure Result where
  url : URL
  host : String
  code : Nat
  length : Int
  contentType : String
  responseHeader : Headers
  redir : Option URL
  error : Option String
  resultGroup : String
deriving DecidableEq, Repr

/-- Modelled from the spec: `results.NewResultForTask` (not under src/)
builds a Result holding only the Task's data: code 0 (no response yet),
unknown length, no headers, no redirect and no error. -/
def NewResultForTask (t : Task) : Result :=
  { url := t.url, host := t.host, code := 0, length := -1, contentType := "",
    responseHeader := [], redir := none, error := none, resultGroup := "" }

/-! ## Worker (src/worker/worker.go and src/unnamed/part_000) -/

/-- Source `worker.KeepSpidering`: false in dot-product mode, otherwise
true iff the code appears in the configured spider codes. -/
def KeepSpidering (s : ScanSettings) (code : Nat) : Bool :=
  if s.runMode == RunMode.dotProduct then false
  else s.spiderCodes.any (fun v => code == v)

/-- Source `worker.Worker.ResultForResponse`: a Result for the Task
filled in from the response, with the captured redirect if any. -/
def ResultForResponse (t : Task) (resp : Response) (redir : Option URL) : Result :=
  { NewResultForTask t with
    code := resp.statusCode
    length := resp.contentLength
    contentType := headerGet resp.header "Content-Type"
    responseHeader := resp.header
    redir := redir }

/-- Source `worker.Worker.ResultForError`: build from the response when
one arrived, otherwise from the Task alone, then attach the error. -/
def ResultForError (t : Task) (resp : Option Response) (err : String)
    (redir : Option URL) : Result :=
  match resp with
  | some r => { ResultForResponse t r redir with error := some err }
  | none => { NewResultForTask t with error := some err }

/-- Interface of a page post-processor as the Worker sees it: an
eligibility check and a handler that may rewrite the Result and produce
new Tasks for the queue. -/
structure PageWorkerM where
  eligible : Response → Bool
  handle : Task → Response → Result → Result × List Task

/-- Everything one `TryTask` call does besides the HTTP request itself:
the Results emitted on the results channel, the Tasks handed to the
work-queue adder, and the returned status code. -/
structure TryOut where
  emitted : List Result
  added : List Task
  ret : Nat
deriving Repr

/-- Source `worker.Worker.TryTask`, shallowly embedded over the outcome
of the single HTTP request it issues (`resp`/`err` from the client,
`redir` the redirect captured by the redirect handler during that
request).  `none` models the nil-response dereference that Go would
panic on in the success branch.  The embedding issues exactly one
request per call: the worker never retries. -/
def tryTask (s : ScanSettings) (pw : Option PageWorkerM) (t : Task)
    (resp : Option Response) (err : Option String) (redir : Option URL) :
    Option TryOut :=
  match err, redir with
  | some e, none =>
    some { emitted := [ResultForError t resp e none], added := [],
           ret := match resp with | none => 0 | some r => r.statusCode }
  | _, _ =>
    match resp with
    | none => none
    | some r =>
      let addSpider := if URLIsDir t.url && KeepSpidering s r.statusCode then [t] else []
      let addRedir := match redir with
        | none => []
        | some ru => [{ t with url := ru }]
      let result := ResultForResponse t r redir
      let (result, pwAdds) :=
        match pw with
        | some p => if p.eligible r then p.handle t r result else (result, [])
        | none => (result, [])
      some { emitted := [result], added := addSpider ++ addRedir ++ pwAdds,
             ret := r.statusCode }

/-- Source `worker.Mangle`: the four backup/swap basename rewrites, in
rule order. -/
def Mangle (basename : String) : List String :=
  ["." ++ basename ++ ".swp",
   basename ++ "~",
   basename ++ ".bak",
   basename ++ ".orig"]

/-- Source `worker.Worker.TryMangleTask`, embedded as the list of Task
copies probed via `TryTask`, in order.  Nothing is handed to the
work-queue adder by this function: mangled tasks are probed directly. -/
def tryMangleTask (s : ScanSettings) (t : Task) : List Task :=
  if !s.mangle then []
  else
    match lastIndexSlashCh t.url.path.data with
    | none => []
    | some spos =>
      let dirname : String := ⟨t.url.path.data.take spos⟩
      let basename : String := ⟨t.url.path.data.drop (spos + 1)⟩
      (Mangle basename).map
        (fun newname => { t with url := { t.url with path := dirname ++ "/" ++ newname } })

/-- Source `HTMLWorker.Eligible` (src/unnamed/part_000): content type
must be text/html (case-insensitively) and the content length unknown
(-1) or strictly between 0 and 10 MiB. -/
def maxHTMLWorkerSize : Int := 10 * 1024 * 1024

/-- Source `HTMLWorker.Eligible` body. -/
def HTMLWorkerEligible (resp : Response) : Bool :=
  let ct := headerGet resp.header "Content-type"
  if toLowerStr ct != "text/html" then false
  else (resp.contentLength == -1)
    || (decide (0 < resp.contentLength) && decide (resp.contentLength < maxHTMLWorkerSize))

/-! ## Work filter (src/filter/filter.go, package filter) -/

/-- The fragment-clearing step at the top of the filter loop
(`t.URL.Fragment = ""`). -/
def clearFrag (t : Task) : Task :=
  { t with url := { t.url with fragment := "" } }

/-- Modelled from the spec: the string form `url.URL.String()` of a URL
(scheme, authority, path, query, fragment). -/
def urlString (u : URL) : String :=
  u.scheme ++ "://" ++ (if u.user == "" then "" else u.user ++ "@") ++ u.host
    ++ u.path
    ++ (if u.rawQuery == "" then "" else "?" ++ u.rawQuery)
    ++ (if u.fragment == "" then "" else "#" ++ u.fragment)

/-- Modelled from the spec: `task.Task.String()` (the task package is
not under src/), the canonical key the filter deduplicates on: URL plus
Host plus the header tuple, an opaque equality key. -/
def taskString (t : Task) : String :=
  urlString t.url ++ "\n" ++ t.host
    ++ String.join (t.header.map (fun kv =>
         "\n" ++ kv.1 ++ ":" ++ String.join (kv.2.map (fun v => " " ++ v))))

/-- What the filter does with one Task: forward it, or reject it with
the logged reason (each rejection calls `QueueDone(1)` exactly once). -/
inductive FEvent where
  | emitted (t : Task)
  | rejected (t : Task) (reason : String)
deriving DecidableEq, Repr

/-- One step of the filter loop together with whether the exclusion
list was consulted for this Task. -/
structure FStep where
  event : FEvent
  exclusionsChecked : Bool
deriving DecidableEq, Repr

/-- Source `filter.WorkFilter.RunFilter` loop body for one Task: clear
the fragment, reject as "already done" when the key is recorded,
otherwise record the key and then reject as "excluded" when some
exclusion contains the URL, otherwise emit. -/
def filterStep (exclusions : List URL) (done : List String) (t0 : Task) :
    List String × FStep :=
  if taskString (clearFrag t0) ∈ done then
    (done, ⟨.rejected (clearFrag t0) "already done", false⟩)
  else if exclusions.any (fun e => URLIsSubpath e (clearFrag t0).url) then
    (taskString (clearFrag t0) :: done, ⟨.rejected (clearFrag t0) "excluded", true⟩)
  else
    (taskString (clearFrag t0) :: done, ⟨.emitted (clearFrag t0), true⟩)

/-- Source `filter.WorkFilter.RunFilter`, run over a whole input
sequence threading the `done` set. -/
def runFilterAux (exclusions : List URL) : List String → List Task → List FStep
  | _, [] => []
  | done, t :: ts =>
    (filterStep exclusions done t).2
      :: runFilterAux exclusions (filterStep exclusions done t).1 ts

/-- Filter run starting from the empty `done` set, as in
`NewWorkFilter`. -/
def runFilter (exclusions : List URL) (ts : List Task) : List FStep :=
  runFilterAux exclusions [] ts

/-- The `done` set after the filter has consumed a list of Tasks. -/
def doneAfter (exclusions : List URL) : List String → List Task → List String
  | done, [] => done
  | done, t :: ts => doneAfter exclusions (filterStep exclusions done t).1 ts

/-- Tasks forwarded on the filter's output channel, in order. -/
def emittedOf (steps : List FStep) : List Task :=
  steps.filterMap (fun s => match s.event with
    | .emitted t => some t
    | .rejected _ _ => none)

/-- Number of `QueueDone(1)` calls the filter made (one per rejection). -/
def queueDoneCalls (steps : List FStep) : Nat :=
  (steps.filter (fun s => match s.event with
    | .emitted _ => false
    | .rejected _ _ => true)).length

/-! ## Differential results (package results part of src/filter/filter.go) -/

/-- Source `results.neverImportant`: headers never considered
significant. -/
def neverImportant : List String := ["etag", "cache-control"]

/-- Source `results.BaselineResult`: a representative Result plus the
significance flags. -/
structure BaselineResult where
  result : Result
  pathSignificant : Bool
  headersSignificant : List String
  codeSignificant : Bool
deriving DecidableEq, Repr

/-- Source `results.BaselineResult.Matches`: false when a significant
path differs, false when a significant code differs, true otherwise. -/
def BaselineResult.Matches (b : BaselineResult) (a : Result) : Bool :=
  if b.pathSignificant && (b.result.url.path != a.url.path) then false
  else if b.codeSignificant && (b.result.code != a.code) then false
  else true

/-- Failure modes of `NewBaselineResult`: the explicit zero-sample error
and the runtime panic from indexing an absent or empty header value
slice at position 0. -/
inductive NBError where
  | needOne
  | indexPanic
deriving DecidableEq, Repr

/-- Go slice indexing `v[0]`: panics (modelled as an error) on an empty
slice. -/
def sliceHead : List String → Except NBError String
  | [] => .error .indexPanic
  | v :: _ => .ok v

/-- The adjacent-pairs comparison loop of `NewBaselineResult`
(`for i := 0; i < len(results)-1; i++`): true iff no adjacent pair of
results differs under `p`. -/
def allAdjacent (p : Result → Result → Bool) : List Result → Bool
  | a :: b :: rest => p a b && allAdjacent p (b :: rest)
  | _ => true

/-- The inner loop over `results[1:]`: compare each later sample's first
value for the (lowercased) key against the baseline value, stopping at
the first mismatch; indexing a missing or empty value slice panics. -/
def checkRest (k : String) (baseline : String) : List Result → Except NBError Bool
  | [] => .ok true
  | r :: rs => do
    let v ← sliceHead (mapGet r.responseHeader k)
    if v != baseline then .ok false else checkRest k baseline rs

/-- The header loop of `NewBaselineResult`: for each header key of the
first sample, lowercase it, skip the never-important ones, and mark it
significant when every sample's first value equals the first sample's
(looking every key up with the lowercased name, exactly as the source
does). -/
def headerLoop (results : List Result) (r0 : Result) : Headers → Except NBError (List String)
  | [] => .ok []
  | (k0, _) :: hs => do
    let k := toLowerStr k0
    if StringSliceContains neverImportant k then headerLoop results r0 hs
    else
      let baseline ← sliceHead (mapGet r0.responseHeader k)
      let matched ← if results.length > 0 then checkRest k baseline (results.drop 1) else pure true
      let tl ← headerLoop results r0 hs
      pure (if matched then k :: tl else tl)

/-- Source `results.NewBaselineResult`: error on an empty sample list;
otherwise start from the first sample with everything significant, turn
code/path significance off when some adjacent pair differs, and collect
the significant headers with the (panic-prone) header loop. -/
def NewBaselineResult (results : List Result) : Except NBError BaselineResult :=
  match results with
  | [] => .error .needOne
  | r0 :: _ => do
    let codeSig := allAdjacent (fun a b => a.code == b.code) results
    let pathSig := allAdjacent (fun a b => a.url.path == b.url.path) results
    let hs ← headerLoop results r0 r0.responseHeader
    pure { result := r0, pathSignificant := pathSig,
           headersSignificant := hs, codeSignificant := codeSig }

/-! ## Spec-side definitions (written from the claims' words, for
refinement comparisons against the source-side definitions above) -/

/-- The matching rule exactly as claim C1 words it: every significant
dimension must agree, including the first value of every header named in
`headersSignificant` (header values read with Go map semantics). -/
def matchesClaimed (b : BaselineResult) (a : Result) : Bool :=
  (!b.pathSignificant || b.result.url.path == a.url.path)
    && (!b.codeSignificant || b.result.code == a.code)
    && b.headersSignificant.all
         (fun k => (mapGet b.result.responseHeader k).head?
                     == (mapGet a.responseHeader k).head?)

/-- The amended matching rule: only the path and code dimensions
participate; `headersSignificant` is ignored. -/
def matchesPathCodeOnly (b : BaselineResult) (a : Result) : Bool :=
  (!b.pathSignificant || b.result.url.path == a.url.path)
    && (!b.codeSignificant || b.result.code == a.code)

/-- Parent paths exactly as claim C7 words them: split the path on
slashes after trimming trailing slashes, and return the joins of
`split.take i` for `i` running from 2 to one below the number of
fields. -/
def parentPathsClaimed (p : String) : List String :=
  let parts := splitSlashCh (trimRightSlashCh p.data)
  (List.range' 2 (parts.length - 2)).map
    (fun i => (⟨joinSlashCh (parts.take i)⟩ : String))

/-- Restriction under which the subpath half of claim C8 holds: after
trimming trailing slashes, every slash-separated segment of the path is
nonempty and is neither "." nor "..", apart from the leading empty
segment a rooted path starts with.  Go `path.Clean` fixes such paths. -/
def cleanPathShape (p : String) : Bool :=
  match splitSlashCh (trimRightSlashCh p.data) with
  | [] => true
  | s0 :: rest => (s0 == [] || goodSegCh s0) && rest.all goodSegCh

/-! ## Concrete sample data used by witnesses and counterexamples -/

/-- Sample URL with a three-segment path. -/
def uABC : URL := ⟨"http", "", "h", "/a/b/c", "q=1", ""⟩

/-- The first parent of `uABC`. -/
def pA : URL := ⟨"http", "", "h", "/a", "q=1", ""⟩

/-- URL whose path contains a "." segment (C8 counterexample input). -/
def uDotB : URL := ⟨"http", "", "h", "/./b", "", ""⟩

/-- The single parent of `uDotB`, with path "/.". -/
def pDot : URL := ⟨"http", "", "h", "/.", "", ""⟩

/-- Baseline for the C1 counterexample: everything significant,
including the "server" header. -/
def bCex : BaselineResult :=
  { result := { url := ⟨"http", "", "h", "/x", "", ""⟩, host := "", code := 200,
                length := 0, contentType := "", responseHeader := [("server", ["a"])],
                redir := none, error := none, resultGroup := "g" },
    pathSignificant := true, headersSignificant := ["server"], codeSignificant := true }

/-- Result for the C1 counterexample: same path and code as `bCex` but a
different first "server" header value. -/
def rCex : Result :=
  { url := ⟨"http", "", "h", "/x", "", ""⟩, host := "", code := 200,
    length := 0, contentType := "", responseHeader := [("server", ["b"])],
    redir := none, error := none, resultGroup := "g" }

/-- Sample Result whose response headers carry the canonical (mixed
case) key "Server", as Go's net/http stores it (C2 failing input). -/
def rServer : Result :=
  { url := ⟨"http", "", "h", "/x", "", ""⟩, host := "", code := 200,
    length := 0, contentType := "", responseHeader := [("Server", ["x"])],
    redir := none, error := none, resultGroup := "g" }

/-- Sample settings with mangling enabled. -/
def sMangle : ScanSettings := ⟨true, "GET", 0, .enumeration, [200]⟩

/-- Sample task for the mangle witness. -/
def tFile : Task := ⟨⟨"http", "", "h", "/dir/file.txt", "", ""⟩, "h", []⟩

/-- Sample task whose path has no slash. -/
def tNoSlash : Task := ⟨⟨"http", "", "h", "nofslash", "", ""⟩, "h", []⟩

/-- Sample task for the filter witnesses. -/
def tDup : Task := ⟨⟨"http", "", "h", "/dir/file.txt", "", "frag"⟩, "h", []⟩

/-- Exclusion URL covering `tDup` (so the first copy of `tDup` is
rejected as excluded, and later copies as already done). -/
def uExclDir : URL := ⟨"", "", "", "/dir", "", ""⟩

/-! ## Helper lemmas about the character-list primitives -/

theorem dropWhile_dropWhile (p : Char → Bool) (l : List Char) :
    (l.dropWhile p).dropWhile p = l.dropWhile p := by
  induction l with
  | nil => rfl
  | cons c cs ih =>
    by_cases h : p c
    · simp [List.dropWhile_cons, h, ih]
    · simp [List.dropWhile_cons, h]

theorem trimRightSlashCh_idem (l : List Char) :
    trimRightSlashCh (trimRightSlashCh l) = trimRightSlashCh l := by
  unfold trimRightSlashCh
  rw [List.reverse_reverse, dropWhile_dropWhile]

/-! ## Claim C1: the baseline matching rule -/

/-- Claim C1, counterexample: a baseline with a significant "server"
header and a result with a different "server" value still match under
the source's `Matches`, though the claim says they must not. -/
theorem matches_headers_counterexample :
    BaselineResult.Matches bCex rCex = true ∧ matchesClaimed bCex rCex = false := by
  constructor <;> rfl

/-- C1 (amended): `BaselineResult.Matches` returns true iff the
significant path and significant code dimensions agree with the
baseline; the headers listed in `HeadersSignificant` are ignored. -/
theorem matches_eq_pathCodeOnly (b : BaselineResult) (a : Result) :
    BaselineResult.Matches b a = matchesPathCodeOnly b a := by
  unfold BaselineResult.Matches matchesPathCodeOnly
  by_cases hp : b.result.url.path = a.url.path <;>
    by_cases hc : b.result.code = a.code <;>
      cases b.pathSignificant <;>
        cases b.codeSignificant <;>
          simp [hp, hc]

/-! ## Claim C2: baseline derivation panics on canonical header keys -/

/-- C2 (code bug): `NewBaselineResult` on a single sample whose response
headers use Go's canonical key form ("Server") panics: it lowercases the
key to "server" and then indexes `ResponseHeader["server"][0]`, which is
the zero-value nil slice.  The claim (and the spec's derivation rule)
say a baseline with "server" significant is returned. -/
theorem newBaselineResult_panics_on_canonical_header :
    NewBaselineResult [rServer] = .error .indexPanic := by rfl

/-! ## Claim C4: the error path of TryTask -/

/-- C4: when the request errors and no redirect was captured, `TryTask`
emits exactly one Result, carrying that error and the response's code
when a response arrived (0 otherwise), returns the same code, adds
nothing to the work queue, and issues no retry (the embedding performs
one request per call). -/
theorem tryTask_error_no_redirect (s : ScanSettings) (pw : Option PageWorkerM)
    (t : Task) (resp : Option Response) (e : String) :
    tryTask s pw t resp (some e) none =
        some { emitted := [ResultForError t resp e none], added := [],
               ret := match resp with | none => 0 | some r => r.statusCode }
      ∧ (ResultForError t resp e none).error = some e
      ∧ (ResultForError t resp e none).code =
          (match resp with | none => 0 | some r => r.statusCode) := by
  refine ⟨rfl, ?_, ?_⟩ <;> cases resp <;> rfl

/-! ## Claim C5: the mangle pass -/

/-- C5: with mangling enabled, a path containing a slash is probed with
exactly four copies of the task whose basenames are, in order,
".basename.swp", "basename~", "basename.bak" and "basename.orig" in the
original directory; a path without a slash is not probed at all. -/
theorem tryMangleTask_probes (s : ScanSettings) (t : Task) (h : s.mangle = true) :
    (∀ spos, lastIndexSlashCh t.url.path.data = some spos →
      tryMangleTask s t =
        [{ t with url := { t.url with path :=
             (⟨t.url.path.data.take spos⟩ : String) ++ "/"
               ++ ("." ++ (⟨t.url.path.data.drop (spos + 1)⟩ : String) ++ ".swp") } },
         { t with url := { t.url with path :=
             (⟨t.url.path.data.take spos⟩ : String) ++ "/"
               ++ ((⟨t.url.path.data.drop (spos + 1)⟩ : String) ++ "~") } },
         { t with url := { t.url with path :=
             (⟨t.url.path.data.take spos⟩ : String) ++ "/"
               ++ ((⟨t.url.path.data.drop (spos + 1)⟩ : String) ++ ".bak") } },
         { t with url := { t.url with path :=
             (⟨t.url.path.data.take spos⟩ : String) ++ "/"
               ++ ((⟨t.url.path.data.drop (spos + 1)⟩ : String) ++ ".orig") } }])
    ∧ (lastIndexSlashCh t.url.path.data = none → tryMangleTask s t = []) := by
  constructor
  · intro spos hs
    unfold tryMangleTask
    rw [h]
    simp [hs, Mangle]
  · intro hs
    unfold tryMangleTask
    rw [h]
    simp [hs]

/-- C5 witness: the theorem evaluated on a task with path
"/dir/file.txt" (mangling on) and on a task with a slashless path. -/
theorem tryMangleTask_probes_witness :
    sMangle.mangle = true
      ∧ (tryMangleTask sMangle tFile).map (fun tk => tk.url.path) =
          ["/dir/.file.txt.swp", "/dir/file.txt~", "/dir/file.txt.bak", "/dir/file.txt.orig"]
      ∧ tryMangleTask sMangle tNoSlash = [] := by
  have h1 := (tryMangleTask_probes sMangle tFile rfl).1 4 rfl
  have h2 := (tryMangleTask_probes sMangle tNoSlash rfl).2 rfl
  exact ⟨rfl, by rw [h1]; rfl, h2⟩

/-! ## Claim C6: eligibility of the HTML extractor -/

/-- C6: a response is eligible for the HTML extractor iff its
Content-Type compares case-insensitively equal to exactly "text/html"
and its content length is -1 or strictly between 0 and 10 MiB; in
particular content length 0 is never eligible and -1 with text/html
is. -/
theorem eligible_characterization :
    (∀ resp : Response,
        HTMLWorkerEligible resp = true ↔
          (toLowerStr (headerGet resp.header "Content-Type") = "text/html"
            ∧ (resp.contentLength = -1
                ∨ (0 < resp.contentLength ∧ resp.contentLength < 10485760))))
      ∧ HTMLWorkerEligible ⟨200, [("Content-Type", ["text/html"])], 0⟩ = false
      ∧ HTMLWorkerEligible ⟨200, [("Content-Type", ["text/html"])], -1⟩ = true := by
  refine ⟨?_, rfl, rfl⟩
  intro resp
  have hkey : headerGet resp.header "Content-type"
      = headerGet resp.header "Content-Type" := rfl
  unfold HTMLWorkerEligible
  rw [hkey]
  by_cases hct : toLowerStr (headerGet resp.header "Content-Type") = "text/html" <;>
    simp [hct, maxHTMLWorkerSize]

/-! ## Claim C7: the parent-path computation -/

/-- C7: for every URL, the paths of `GetParentPaths` are exactly the
joins of the first 2, 3, …, len-1 fields of the path split on "/" after
trimming trailing slashes; on "/a/b/c" they are "/a" and "/a/b" in that
order. -/
theorem getParentPaths_paths :
    (∀ u : URL, (GetParentPaths u).map URL.path = parentPathsClaimed u.path)
      ∧ (GetParentPaths uABC).map URL.path = ["/a", "/a/b"] := by
  constructor
  · intro u
    unfold GetParentPaths getParentPathsString parentPathsClaimed
    simp [List.map_map, trimRightSlashCh_idem]
  · rfl

/-! ## Claim C10: parent paths only differ in the path component -/

/-- C10: every URL returned by `GetParentPaths` is a copy of the child
in which only the path differs: scheme, user info, host, raw query and
fragment are all preserved. -/
theorem getParentPaths_frame (u p : URL) (hp : p ∈ GetParentPaths u) :
    p.scheme = u.scheme ∧ p.host = u.host ∧ p.user = u.user
      ∧ p.rawQuery = u.rawQuery ∧ p.fragment = u.fragment := by
  unfold GetParentPaths at hp
  simp only [List.mem_map] at hp
  obtain ⟨x, -, rfl⟩ := hp
  exact ⟨rfl, rfl, rfl, rfl, rfl⟩

/-- C10 witness: the frame condition evaluated on the first parent of
"/a/b/c" (which inherits the child's query string). -/
theorem getParentPaths_frame_witness :
    pA ∈ GetParentPaths uABC
      ∧ (pA.scheme = uABC.scheme ∧ pA.host = uABC.host ∧ pA.user = uABC.user
          ∧ pA.rawQuery = uABC.rawQuery ∧ pA.fragment = uABC.fragment) :=
  ⟨by decide, getParentPaths_frame uABC pA (by decide)⟩

/-! ## Split and join lemmas (toward claim C8) -/

theorem splitSlashCh_ne_nil (l : List Char) : splitSlashCh l ≠ [] := by
  cases l with
  | nil => simp [splitSlashCh]
  | cons c cs =>
    unfold splitSlashCh
    by_cases h : c == '/'
    · simp [h]
    · simp only [h]
      cases splitSlashCh cs <;> simp

theorem splitSlashCh_cons_slash (cs : List Char) :
    splitSlashCh ('/' :: cs) = [] :: splitSlashCh cs := rfl

theorem splitSlashCh_cons_ne (c : Char) (cs : List Char) (h : c ≠ '/')
    (g : List Char) (gs : List (List Char)) (hgs : splitSlashCh cs = g :: gs) :
    splitSlashCh (c :: cs) = (c :: g) :: gs := by
  simp only [splitSlashCh]
  rw [if_neg (by simpa using h), hgs]

theorem joinSlashCh_cons_cons (g h : List Char) (t : List (List Char)) :
    joinSlashCh (g :: h :: t) = g ++ '/' :: joinSlashCh (h :: t) := rfl

theorem joinSlashCh_singleton (g : List Char) : joinSlashCh [g] = g := rfl

theorem join_split (l : List Char) : joinSlashCh (splitSlashCh l) = l := by
  induction l with
  | nil => rfl
  | cons c cs ih =>
    by_cases hc : c = '/'
    · subst hc
      rw [splitSlashCh_cons_slash]
      obtain ⟨g, gs, hgs⟩ := List.exists_cons_of_ne_nil (splitSlashCh_ne_nil cs)
      rw [hgs] at ih ⊢
      rw [joinSlashCh_cons_cons]
      simp [ih]
    · obtain ⟨g, gs, hgs⟩ := List.exists_cons_of_ne_nil (splitSlashCh_ne_nil cs)
      rw [splitSlashCh_cons_ne c cs hc g gs hgs]
      rw [hgs] at ih
      cases gs with
      | nil => simpa [joinSlashCh] using congrArg (c :: ·) ih
      | cons g2 t =>
        rw [joinSlashCh_cons_cons] at ih ⊢
        rw [List.cons_append, ih]

theorem mem_split_no_slash (l g : List Char) (hg : g ∈ splitSlashCh l) :
    '/' ∉ g := by
  induction l generalizing g with
  | nil =>
    simp [splitSlashCh] at hg
    subst hg
    simp
  | cons c cs ih =>
    by_cases hc : c = '/'
    · subst hc
      rw [splitSlashCh_cons_slash] at hg
      rcases List.mem_cons.mp hg with rfl | hg2
      · simp
      · exact ih g hg2
    · obtain ⟨g0, gs, hgs⟩ := List.exists_cons_of_ne_nil (splitSlashCh_ne_nil cs)
      rw [splitSlashCh_cons_ne c cs hc g0 gs hgs] at hg
      rcases List.mem_cons.mp hg with rfl | hg2
      · intro hmem
        rcases List.mem_cons.mp hmem with hceq | hmem2
        · exact hc hceq.symm
        · exact ih g0 (by rw [hgs]; exact List.mem_cons_self g0 gs) hmem2
      · exact ih g (by rw [hgs]; exact List.mem_cons_of_mem g0 hg2)

theorem split_no_slash (g : List Char) (h : '/' ∉ g) : splitSlashCh g = [g] := by
  induction g with
  | nil => rfl
  | cons c cs ih =>
    have hc : c ≠ '/' := fun hceq => h (List.mem_cons.mpr (Or.inl hceq.symm))
    have hcs : '/' ∉ cs := fun hm => h (List.mem_cons_of_mem c hm)
    rw [splitSlashCh_cons_ne c cs hc cs [] (ih hcs)]

theorem split_seg_slash (g m : List Char) (h : '/' ∉ g) :
    splitSlashCh (g ++ '/' :: m) = g :: splitSlashCh m := by
  induction g with
  | nil => simpa using splitSlashCh_cons_slash m
  | cons c cs ih =>
    have hc : c ≠ '/' := fun hceq => h (List.mem_cons.mpr (Or.inl hceq.symm))
    have hcs : '/' ∉ cs := fun hm => h (List.mem_cons_of_mem c hm)
    rw [List.cons_append,
      splitSlashCh_cons_ne c (cs ++ '/' :: m) hc cs (splitSlashCh m) (ih hcs)]

theorem split_join (L : List (List Char)) (hne : L ≠ [])
    (h : ∀ g ∈ L, '/' ∉ g) : splitSlashCh (joinSlashCh L) = L := by
  induction L with
  | nil => exact absurd rfl hne
  | cons g gs ih =>
    cases gs with
    | nil => exact split_no_slash g (h g (List.mem_cons_self g []))
    | cons g2 t =>
      rw [joinSlashCh_cons_cons,
        split_seg_slash g _ (h g (List.mem_cons_self g (g2 :: t)))]
      rw [ih (by simp) (fun x hx => h x (List.mem_cons_of_mem g hx))]

theorem split_append_slash (m : List Char) :
    splitSlashCh (m ++ ['/']) = splitSlashCh m ++ [[]] := by
  induction m with
  | nil => rfl
  | cons c cs ih =>
    by_cases hc : c = '/'
    · subst hc
      rw [List.cons_append, splitSlashCh_cons_slash, splitSlashCh_cons_slash, ih]
      rfl
    · obtain ⟨g0, gs, hgs⟩ := List.exists_cons_of_ne_nil (splitSlashCh_ne_nil cs)
      have h2 : splitSlashCh (cs ++ ['/']) = g0 :: (gs ++ [[]]) := by
        rw [ih, hgs]
        rfl
      rw [List.cons_append,
        splitSlashCh_cons_ne c (cs ++ ['/']) hc g0 (gs ++ [[]]) h2,
        splitSlashCh_cons_ne c cs hc g0 gs hgs]
      rfl

theorem split_append_slashes (m : List Char) (k : Nat) :
    splitSlashCh (m ++ List.replicate k '/')
      = splitSlashCh m ++ List.replicate k [] := by
  induction k with
  | zero => simp
  | succ n ih =>
    rw [List.replicate_succ' n '/', ← List.append_assoc, split_append_slash,
      ih, List.replicate_succ' n ([] : List Char), List.append_assoc]

theorem trim_decomp (l : List Char) :
    ∃ k, l = trimRightSlashCh l ++ List.replicate k '/' := by
  unfold trimRightSlashCh
  have hall : ∀ c ∈ (l.reverse.takeWhile (· == '/')), c = '/' := by
    intro c hc
    have := List.mem_takeWhile_imp hc
    simpa [beq_iff_eq] using this
  refine ⟨(l.reverse.takeWhile (· == '/')).length, ?_⟩
  have hrepl : (l.reverse.takeWhile (· == '/')).reverse
      = List.replicate (l.reverse.takeWhile (· == '/')).length '/' := by
    rw [List.eq_replicate_of_mem (a := '/')
      (l := (l.reverse.takeWhile (· == '/')).reverse)
      (fun b hb => hall b (List.mem_reverse.mp hb))]
    simp
  calc l = l.reverse.reverse := (List.reverse_reverse l).symm
    _ = ((l.reverse.takeWhile (· == '/'))
          ++ (l.reverse.dropWhile (· == '/'))).reverse := by
        rw [List.takeWhile_append_dropWhile]
    _ = (l.reverse.dropWhile (· == '/')).reverse
          ++ (l.reverse.takeWhile (· == '/')).reverse := by
        rw [List.reverse_append]
    _ = _ := by rw [hrepl]

theorem cleanSegsAux_nil (r : Bool) (acc : List (List Char)) :
    cleanSegsAux r [] acc = acc.reverse := rfl

theorem cleanSegsAux_cons_skip (r : Bool) (s : List Char)
    (rest acc : List (List Char)) (h : s = [] ∨ s = ['.']) :
    cleanSegsAux r (s :: rest) acc = cleanSegsAux r rest acc := by
  rcases h with rfl | rfl <;> rfl

theorem goodSegCh_split (s : List Char) (h : goodSegCh s = true) :
    (s == []) = false ∧ (s == ['.']) = false ∧ (s == ['.', '.']) = false := by
  rw [goodSegCh] at h
  simp only [Bool.and_eq_true, Bool.not_eq_true'] at h
  exact ⟨h.1.1, h.1.2, h.2⟩

theorem cleanSegsAux_cons_good (r : Bool) (s : List Char)
    (rest acc : List (List Char)) (h : goodSegCh s = true) :
    cleanSegsAux r (s :: rest) acc = cleanSegsAux r rest (s :: acc) := by
  obtain ⟨h1, h2, h3⟩ := goodSegCh_split s h
  simp only [cleanSegsAux, h1, h2, h3, Bool.or_self, Bool.false_eq_true,
    if_false]

theorem cleanSegsAux_goodish (r : Bool) (L : List (List Char))
    (h : ∀ g ∈ L, g = [] ∨ goodSegCh g = true) (acc : List (List Char)) :
    cleanSegsAux r L acc = acc.reverse ++ L.filter (fun g => !(g == [])) := by
  induction L generalizing acc with
  | nil => simp [cleanSegsAux_nil]
  | cons g gs ih =>
    rcases h g (List.mem_cons_self g gs) with hnil | hgood
    · subst hnil
      rw [cleanSegsAux_cons_skip r [] gs acc (Or.inl rfl),
        ih (fun x hx => h x (List.mem_cons_of_mem _ hx)) acc]
      simp [List.filter_cons]
    · obtain ⟨h1, _, _⟩ := goodSegCh_split g hgood
      have hne : g ≠ [] := by simpa using h1
      rw [cleanSegsAux_cons_good r g gs acc hgood,
        ih (fun x hx => h x (List.mem_cons_of_mem _ hx)) (g :: acc)]
      simp [List.filter_cons, hne]

theorem filter_good (L : List (List Char)) (h : ∀ g ∈ L, goodSegCh g = true) :
    L.filter (fun g => !(g == [])) = L := by
  rw [List.filter_eq_self]
  intro a ha
  obtain ⟨h1, -, -⟩ := goodSegCh_split a (h a ha)
  simp [h1]

theorem join_take_drop (L : List (List Char)) (i : Nat) (h1 : 1 ≤ i)
    (h2 : i < L.length) :
    joinSlashCh L = joinSlashCh (L.take i) ++ '/' :: joinSlashCh (L.drop i) := by
  induction i generalizing L with
  | zero => omega
  | succ n ih =>
    cases L with
    | nil => simp at h2
    | cons g gs =>
      cases n with
      | zero =>
        cases gs with
        | nil => simp at h2
        | cons g2 t => simp [joinSlashCh_cons_cons, joinSlashCh_singleton]
      | succ m =>
        have hgs : m + 1 < gs.length := by
          simpa using Nat.lt_of_succ_lt_succ h2
        have hrec := ih (L := gs) (by omega) hgs
        cases gs with
        | nil => simp at hgs
        | cons g2 t =>
          rw [joinSlashCh_cons_cons, hrec]
          have htkne : (g2 :: t).take (m + 1) ≠ [] := by
            simp
          obtain ⟨a, as, has⟩ := List.exists_cons_of_ne_nil htkne
          have htk : (g :: g2 :: t).take (m + 1 + 1) = g :: (g2 :: t).take (m + 1) := rfl
          have hdr : (g :: g2 :: t).drop (m + 1 + 1) = (g2 :: t).drop (m + 1) := rfl
          rw [htk, hdr, has, joinSlashCh_cons_cons]
          simp

theorem join_length_lt (L : List (List Char)) (i : Nat) (h1 : 1 ≤ i)
    (h2 : i < L.length) :
    (joinSlashCh (L.take i)).length < (joinSlashCh L).length := by
  rw [join_take_drop L i h1 h2]
  simp

theorem data_mk (l : List Char) : (⟨l⟩ : String).data = l := rfl

theorem join_ne_nil_of_good (L : List (List Char)) (hne : L ≠ [])
    (h : ∀ g ∈ L, goodSegCh g = true) : joinSlashCh L ≠ [] := by
  cases L with
  | nil => exact absurd rfl hne
  | cons g gs =>
    cases gs with
    | nil =>
      obtain ⟨h1, -, -⟩ := goodSegCh_split g (h g (List.mem_cons_self g []))
      rw [joinSlashCh_singleton]
      simpa using h1
    | cons g2 t =>
      rw [joinSlashCh_cons_cons]
      simp

/-- Go `path.Clean` fixes a rooted path made of good slash-free
segments, up to removal of trailing slashes. -/
theorem clean_rooted_good (gs : List (List Char)) (k : Nat) (hne : gs ≠ [])
    (hgood : ∀ g ∈ gs, goodSegCh g = true) (hnos : ∀ g ∈ gs, '/' ∉ g) :
    pathCleanCh (joinSlashCh ([] :: gs) ++ List.replicate k '/')
      = joinSlashCh ([] :: gs) := by
  obtain ⟨g0, gtl, rfl⟩ := List.exists_cons_of_ne_nil hne
  have hjoin : joinSlashCh ([] :: g0 :: gtl) = '/' :: joinSlashCh (g0 :: gtl) := by
    rw [joinSlashCh_cons_cons]
    rfl
  have hnosall : ∀ g ∈ ([] :: g0 :: gtl : List (List Char)), '/' ∉ g := by
    intro g hg
    rcases List.mem_cons.mp hg with rfl | hg2
    · simp
    · exact hnos g hg2
  have hsplit : splitSlashCh (joinSlashCh ([] :: g0 :: gtl) ++ List.replicate k '/')
      = ([] :: g0 :: gtl) ++ List.replicate k [] := by
    rw [split_append_slashes, split_join _ (by simp) hnosall]
  have hgn : ∀ g ∈ (([] :: g0 :: gtl) ++ List.replicate k [] : List (List Char)),
      g = [] ∨ goodSegCh g = true := by
    intro g hg
    rcases List.mem_append.mp hg with hg1 | hg2
    · rcases List.mem_cons.mp hg1 with rfl | hg3
      · exact Or.inl rfl
      · exact Or.inr (hgood g hg3)
    · exact Or.inl (List.eq_of_mem_replicate hg2)
  have hclean : cleanSegsAux true (([] :: g0 :: gtl) ++ List.replicate k []) []
      = g0 :: gtl := by
    rw [cleanSegsAux_goodish true _ hgn []]
    rw [List.filter_append]
    have hrep : (List.replicate k ([] : List Char)).filter (fun g => !(g == [])) = [] := by
      rw [List.filter_eq_nil_iff]
      intro a ha
      rw [List.eq_of_mem_replicate ha]
      simp
    rw [hrep, List.filter_cons]
    simp only [List.reverse_nil, List.nil_append, List.append_nil]
    rw [if_neg (by simp)]
    exact filter_good _ hgood
  have hL : joinSlashCh ([] :: g0 :: gtl) ++ List.replicate k '/'
      = '/' :: (joinSlashCh (g0 :: gtl) ++ List.replicate k '/') := by
    rw [hjoin]
    rfl
  unfold pathCleanCh
  rw [hL] at hsplit ⊢
  rw [if_neg (by simp)]
  simp only [List.head?_cons]
  have hroot : ((some '/' : Option Char) == some '/') = true := by decide
  simp only [List.cons_append] at hclean
  simp [hroot, hsplit, hclean, hjoin]

/-- Go `path.Clean` fixes an unrooted path made of good slash-free
segments, up to removal of trailing slashes. -/
theorem clean_unrooted_good (gs : List (List Char)) (k : Nat) (hne : gs ≠ [])
    (hgood : ∀ g ∈ gs, goodSegCh g = true) (hnos : ∀ g ∈ gs, '/' ∉ g) :
    pathCleanCh (joinSlashCh gs ++ List.replicate k '/') = joinSlashCh gs := by
  obtain ⟨g0, gtl, rfl⟩ := List.exists_cons_of_ne_nil hne
  obtain ⟨c0, g0t, rfl⟩ : ∃ c0 g0t, g0 = c0 :: g0t := by
    obtain ⟨h1, -, -⟩ := goodSegCh_split g0 (hgood g0 (List.mem_cons_self g0 gtl))
    cases g0 with
    | nil => simp at h1
    | cons a b => exact ⟨a, b, rfl⟩
  have hc0 : c0 ≠ '/' := by
    intro hc
    exact hnos (c0 :: g0t) (List.mem_cons_self _ _) (by rw [hc]; exact List.mem_cons_self _ _)
  have hjoin : ∃ r, joinSlashCh ((c0 :: g0t) :: gtl) = c0 :: r := by
    cases gtl with
    | nil => exact ⟨g0t, rfl⟩
    | cons g2 t2 => exact ⟨g0t ++ '/' :: joinSlashCh (g2 :: t2), by rw [joinSlashCh_cons_cons]; rfl⟩
  obtain ⟨r, hr⟩ := hjoin
  have hsplit : splitSlashCh (joinSlashCh ((c0 :: g0t) :: gtl) ++ List.replicate k '/')
      = ((c0 :: g0t) :: gtl) ++ List.replicate k [] := by
    rw [split_append_slashes, split_join _ (by simp) hnos]
  have hgn : ∀ g ∈ (((c0 :: g0t) :: gtl) ++ List.replicate k [] : List (List Char)),
      g = [] ∨ goodSegCh g = true := by
    intro g hg
    rcases List.mem_append.mp hg with hg1 | hg2
    · exact Or.inr (hgood g hg1)
    · exact Or.inl (List.eq_of_mem_replicate hg2)
  have hclean : cleanSegsAux false (((c0 :: g0t) :: gtl) ++ List.replicate k []) []
      = (c0 :: g0t) :: gtl := by
    rw [cleanSegsAux_goodish false _ hgn []]
    rw [List.filter_append]
    have hrep : (List.replicate k ([] : List Char)).filter (fun g => !(g == [])) = [] := by
      rw [List.filter_eq_nil_iff]
      intro a ha
      rw [List.eq_of_mem_replicate ha]
      simp
    rw [hrep, List.append_nil, List.reverse_nil, List.nil_append]
    exact filter_good _ hgood
  have hL : joinSlashCh ((c0 :: g0t) :: gtl) ++ List.replicate k '/'
      = c0 :: (r ++ List.replicate k '/') := by
    rw [hr]
    rfl
  unfold pathCleanCh
  rw [hL] at hsplit ⊢
  rw [if_neg (by simp)]
  simp only [List.head?_cons]
  have hroot : ((some c0 : Option Char) == some '/') = false := by
    simpa using hc0
  simp only [List.cons_append] at hclean
  simp [hroot, hsplit, hclean, hr]

/-- Decomposition of membership in `GetParentPaths`: each parent is the
child with its path replaced by the join of a proper prefix (of at least
two fields) of the split trimmed path. -/
theorem mem_getParentPaths (u p : URL) (hp : p ∈ GetParentPaths u) :
    ∃ i, 2 ≤ i ∧ i < (splitSlashCh (trimRightSlashCh u.path.data)).length ∧
      p = { u with path :=
        ⟨joinSlashCh ((splitSlashCh (trimRightSlashCh u.path.data)).take i)⟩ } := by
  unfold GetParentPaths getParentPathsString at hp
  simp only [data_mk, trimRightSlashCh_idem, List.map_map, List.mem_map,
    List.mem_range'_1] at hp
  obtain ⟨i, ⟨hi2, hilt⟩, rfl⟩ := hp
  refine ⟨i, hi2, by omega, rfl⟩

/-- A path copy of `u` whose cleaned path extends to `u`'s cleaned path
at a slash boundary passes `URLIsSubpath`. -/
theorem urlIsSubpath_of_decomp (u : URL) (P D : List Char) (hPne : P ≠ ['/'])
    (hcleanP : pathCleanCh P = P)
    (hcleanC : pathCleanCh u.path.data = P ++ '/' :: D) :
    URLIsSubpath { u with path := (⟨P⟩ : String) } u = true := by
  have hne1 : ((⟨P⟩ : String) == "/") = false :=
    beq_eq_false_iff_ne.mpr (fun h => hPne (congrArg String.data h))
  have hlen : ¬((P ++ '/' :: D).length < P.length) := by
    simp only [List.length_append, List.length_cons]
    omega
  have hbne : ((P ++ '/' :: D) == P) = false := by
    rw [beq_eq_false_iff_ne]
    intro h
    have h2 := congrArg List.length h
    simp only [List.length_append, List.length_cons] at h2
    omega
  have hpre : P.isPrefixOf (P ++ '/' :: D) = true := by
    rw [List.isPrefixOf_iff_prefix]
    exact ⟨'/' :: D, rfl⟩
  have hget : (P ++ '/' :: D)[P.length]? = some '/' := by
    rw [List.getElem?_append_right (le_refl _)]
    simp
  unfold URLIsSubpath
  simp [hne1, hcleanP, hcleanC, hlen, hbne, hpre, hget]

/-- Core of the subpath half of claim C8, for a path whose split has
good tail segments, handling both the rooted and unrooted cases. -/
theorem subpath_case (u : URL) (s0 : List Char) (rest : List (List Char)) (j k : Nat)
    (hsr : splitSlashCh (trimRightSlashCh u.path.data) = s0 :: rest)
    (hk : u.path.data = trimRightSlashCh u.path.data ++ List.replicate k '/')
    (hrestlen : j + 1 < rest.length)
    (hs0 : s0 = [] ∨ goodSegCh s0 = true)
    (hrest : ∀ g ∈ rest, goodSegCh g = true) :
    URLIsSubpath
      { u with path :=
          (⟨joinSlashCh ((splitSlashCh (trimRightSlashCh u.path.data)).take (j + 2))⟩ : String) }
      u = true := by
  have htake : (splitSlashCh (trimRightSlashCh u.path.data)).take (j + 2)
      = s0 :: rest.take (j + 1) := by
    rw [hsr]
    rfl
  have hjs : joinSlashCh (s0 :: rest) = trimRightSlashCh u.path.data := by
    rw [← hsr]
    exact join_split _
  have hrestne : rest ≠ [] := by
    intro h
    rw [h] at hrestlen
    simp at hrestlen
  have hrtne : rest.take (j + 1) ≠ [] := by
    simp [List.take_eq_nil_iff, hrestne]
  have hrtgood : ∀ g ∈ rest.take (j + 1), goodSegCh g = true :=
    fun g hg => hrest g (List.take_subset _ _ hg)
  have hnosS : ∀ g ∈ s0 :: rest, '/' ∉ g := by
    intro g hg
    exact mem_split_no_slash _ g (by rw [hsr]; exact hg)
  have hrestnos : ∀ g ∈ rest, '/' ∉ g :=
    fun g hg => hnosS g (List.mem_cons_of_mem s0 hg)
  have hrtnos : ∀ g ∈ rest.take (j + 1), '/' ∉ g :=
    fun g hg => hrestnos g (List.take_subset _ _ hg)
  rw [htake]
  rcases hs0 with rfl | hs0g
  · -- rooted path: the split starts with the empty field
    have hjrne : joinSlashCh (rest.take (j + 1)) ≠ [] :=
      join_ne_nil_of_good _ hrtne hrtgood
    have hjrform : joinSlashCh ([] :: rest.take (j + 1))
        = '/' :: joinSlashCh (rest.take (j + 1)) := by
      obtain ⟨a, as, has⟩ := List.exists_cons_of_ne_nil hrtne
      rw [has, joinSlashCh_cons_cons]
      rfl
    have hPne : joinSlashCh ([] :: rest.take (j + 1)) ≠ ['/'] := by
      rw [hjrform]
      intro h
      injection h with h1 h2
      exact hjrne h2
    have hcleanP : pathCleanCh (joinSlashCh ([] :: rest.take (j + 1)))
        = joinSlashCh ([] :: rest.take (j + 1)) := by
      have h := clean_rooted_good (rest.take (j + 1)) 0 hrtne hrtgood hrtnos
      simpa using h
    have hdec : joinSlashCh ([] :: rest)
        = joinSlashCh ([] :: rest.take (j + 1))
            ++ '/' :: joinSlashCh (rest.drop (j + 1)) := by
      have h := join_take_drop ([] :: rest) (j + 2) (by omega) (by simp; omega)
      simpa using h
    have hcleanC : pathCleanCh u.path.data
        = joinSlashCh ([] :: rest.take (j + 1))
            ++ '/' :: joinSlashCh (rest.drop (j + 1)) := by
      conv_lhs => rw [hk, ← hjs]
      rw [clean_rooted_good rest k hrestne hrest hrestnos]
      exact hdec
    exact urlIsSubpath_of_decomp u _ _ hPne hcleanP hcleanC
  · -- unrooted path: the split starts with a good segment
    obtain ⟨c0, s0t, rfl⟩ : ∃ c0 s0t, s0 = c0 :: s0t := by
      obtain ⟨h1, -, -⟩ := goodSegCh_split s0 hs0g
      cases s0 with
      | nil => simp at h1
      | cons a b => exact ⟨a, b, rfl⟩
    have hc0 : c0 ≠ '/' := by
      intro hc
      exact hnosS (c0 :: s0t) (List.mem_cons_self _ _)
        (by rw [hc]; exact List.mem_cons_self _ _)
    have hall : ∀ g ∈ (c0 :: s0t) :: rest.take (j + 1), goodSegCh g = true := by
      intro g hg
      rcases List.mem_cons.mp hg with rfl | hg2
      · exact hs0g
      · exact hrtgood g hg2
    have hallnos : ∀ g ∈ (c0 :: s0t) :: rest.take (j + 1), '/' ∉ g := by
      intro g hg
      rcases List.mem_cons.mp hg with rfl | hg2
      · exact hnosS _ (List.mem_cons_self _ _)
      · exact hrtnos g hg2
    have hallS : ∀ g ∈ (c0 :: s0t) :: rest, goodSegCh g = true := by
      intro g hg
      rcases List.mem_cons.mp hg with rfl | hg2
      · exact hs0g
      · exact hrest g hg2
    have hPform : ∃ r, joinSlashCh ((c0 :: s0t) :: rest.take (j + 1)) = c0 :: r := by
      obtain ⟨a, as, has⟩ := List.exists_cons_of_ne_nil hrtne
      rw [has, joinSlashCh_cons_cons]
      exact ⟨s0t ++ '/' :: joinSlashCh (a :: as), rfl⟩
    obtain ⟨r, hr⟩ := hPform
    have hPne : joinSlashCh ((c0 :: s0t) :: rest.take (j + 1)) ≠ ['/'] := by
      rw [hr]
      intro h
      injection h with h1 h2
      exact hc0 h1
    have hcleanP : pathCleanCh (joinSlashCh ((c0 :: s0t) :: rest.take (j + 1)))
        = joinSlashCh ((c0 :: s0t) :: rest.take (j + 1)) := by
      have h := clean_unrooted_good ((c0 :: s0t) :: rest.take (j + 1)) 0
        (by simp) hall hallnos
      simpa using h
    have hdec : joinSlashCh ((c0 :: s0t) :: rest)
        = joinSlashCh ((c0 :: s0t) :: rest.take (j + 1))
            ++ '/' :: joinSlashCh (rest.drop (j + 1)) := by
      have h := join_take_drop ((c0 :: s0t) :: rest) (j + 2) (by omega) (by simp; omega)
      simpa using h
    have hcleanC : pathCleanCh u.path.data
        = joinSlashCh ((c0 :: s0t) :: rest.take (j + 1))
            ++ '/' :: joinSlashCh (rest.drop (j + 1)) := by
      conv_lhs => rw [hk, ← hjs]
      rw [clean_unrooted_good ((c0 :: s0t) :: rest) k (by simp) hallS hnosS]
      exact hdec
    exact urlIsSubpath_of_decomp u _ _ hPne hcleanP hcleanC

/-! ## Claim C8: parents are strict ancestors -/

/-- C8 counterexample: for the URL with path "/./b", `GetParentPaths`
returns the URL with path "/." and `URLIsSubpath` rejects it (Go
`path.Clean` turns "/." into "/" but the source compares the uncleaned
parent path against "/" before cleaning), refuting the claim as
stated. -/
theorem getParentPaths_subpath_counterexample :
    pDot ∈ GetParentPaths uDotB ∧ URLIsSubpath pDot uDotB = false := by
  constructor <;> decide

/-- C8 (amended): every element of `GetParentPaths u` has a path
different from `u`'s; and when every slash-separated segment of `u`'s
trimmed path (apart from the leading empty segment of a rooted path) is
nonempty and neither "." nor "..", every element also satisfies
`URLIsSubpath`.  Without that restriction the subpath half fails, as
the "/./b" counterexample shows. -/
theorem getParentPaths_strict_ancestor (u p : URL) (hp : p ∈ GetParentPaths u) :
    p.path ≠ u.path ∧ (cleanPathShape u.path = true → URLIsSubpath p u = true) := by
  obtain ⟨i, hi2, hilen, rfl⟩ := mem_getParentPaths u p hp
  constructor
  · intro heq
    have hd : joinSlashCh ((splitSlashCh (trimRightSlashCh u.path.data)).take i)
        = u.path.data := congrArg String.data heq
    have hlt := join_length_lt (splitSlashCh (trimRightSlashCh u.path.data)) i
      (by omega) hilen
    have hjs : joinSlashCh (splitSlashCh (trimRightSlashCh u.path.data))
        = trimRightSlashCh u.path.data := join_split _
    obtain ⟨k, hk⟩ := trim_decomp u.path.data
    have hlen2 : (trimRightSlashCh u.path.data).length ≤ u.path.data.length := by
      conv_rhs => rw [hk]
      simp
    rw [hjs, hd] at hlt
    omega
  · intro hshape
    obtain ⟨j, rfl⟩ : ∃ j, i = j + 2 := ⟨i - 2, by omega⟩
    obtain ⟨s0, rest, hsr⟩ :=
      List.exists_cons_of_ne_nil (splitSlashCh_ne_nil (trimRightSlashCh u.path.data))
    have hshape2 : ((s0 == []) || goodSegCh s0) = true
        ∧ ∀ g ∈ rest, goodSegCh g = true := by
      unfold cleanPathShape at hshape
      rw [hsr] at hshape
      simpa [Bool.and_eq_true, List.all_eq_true] using hshape
    have hs0 : s0 = [] ∨ goodSegCh s0 = true := by
      rcases Bool.or_eq_true_iff.mp hshape2.1 with h | h
      · exact Or.inl (by simpa using h)
      · exact Or.inr h
    have hrest : ∀ g ∈ rest, goodSegCh g = true := hshape2.2
    obtain ⟨k, hk⟩ := trim_decomp u.path.data
    have hrestlen : j + 1 < rest.length := by
      rw [hsr] at hilen
      simp only [List.length_cons] at hilen
      omega
    exact subpath_case u s0 rest j k hsr hk hrestlen hs0 hrest

/-- C8 witness: the amended theorem evaluated at the clean-shaped URL
"/a/b/c" and its parent "/a". -/
theorem getParentPaths_strict_ancestor_witness :
    pA ∈ GetParentPaths uABC ∧ cleanPathShape uABC.path = true
      ∧ (pA.path ≠ uABC.path
          ∧ (cleanPathShape uABC.path = true → URLIsSubpath pA uABC = true)) :=
  ⟨by decide, by decide, getParentPaths_strict_ancestor uABC pA (by decide)⟩

/-! ## Filter lemmas (toward claims C3 and C9) -/

theorem filterStep_done_subset (excl : List URL) (done : List String) (t : Task) :
    ∀ k ∈ done, k ∈ (filterStep excl done t).1 := by
  intro k hk
  unfold filterStep
  by_cases h : taskString (clearFrag t) ∈ done
  · simp [h, hk]
  · by_cases h2 : (excl.any fun e => URLIsSubpath e (clearFrag t).url) = true <;>
      simp [h, h2, hk]

theorem filterStep_key_mem (excl : List URL) (done : List String) (t : Task) :
    taskString (clearFrag t) ∈ (filterStep excl done t).1 := by
  unfold filterStep
  by_cases h : taskString (clearFrag t) ∈ done
  · simp [h]
  · by_cases h2 : (excl.any fun e => URLIsSubpath e (clearFrag t).url) = true <;>
      simp [h, h2]

theorem runFilterAux_length (excl : List URL) (done : List String) (ts : List Task) :
    (runFilterAux excl done ts).length = ts.length := by
  induction ts generalizing done with
  | nil => rfl
  | cons t ts ih => simp [runFilterAux, ih]

theorem runFilterAux_append (excl : List URL) (done : List String) (a b : List Task) :
    runFilterAux excl done (a ++ b)
      = runFilterAux excl done a ++ runFilterAux excl (doneAfter excl done a) b := by
  induction a generalizing done with
  | nil => rfl
  | cons t ts ih => simp [runFilterAux, doneAfter, ih]

theorem doneAfter_append (excl : List URL) (done : List String) (a b : List Task) :
    doneAfter excl done (a ++ b) = doneAfter excl (doneAfter excl done a) b := by
  induction a generalizing done with
  | nil => rfl
  | cons t ts ih => simp [doneAfter, ih]

theorem doneAfter_mono (excl : List URL) (ts : List Task) :
    ∀ done, ∀ k ∈ done, k ∈ doneAfter excl done ts := by
  induction ts with
  | nil => intro done k hk; exact hk
  | cons t ts ih =>
    intro done k hk
    exact ih _ k (filterStep_done_subset excl done t k hk)

theorem mem_emitted_not_done (excl : List URL) (ts : List Task) :
    ∀ done t2, t2 ∈ emittedOf (runFilterAux excl done ts) → taskString t2 ∉ done := by
  induction ts with
  | nil =>
    intro done t2 h
    simp [runFilterAux, emittedOf] at h
  | cons t ts ih =>
    intro done t2 h
    rw [runFilterAux] at h
    by_cases hdup : taskString (clearFrag t) ∈ done
    · rw [show filterStep excl done t
          = (done, ⟨.rejected (clearFrag t) "already done", false⟩) by
        simp [filterStep, hdup]] at h
      simp only [emittedOf, List.filterMap_cons] at h
      exact ih done t2 h
    · by_cases hexc : (excl.any fun e => URLIsSubpath e (clearFrag t).url) = true
      · rw [show filterStep excl done t
            = (taskString (clearFrag t) :: done,
                ⟨.rejected (clearFrag t) "excluded", true⟩) by
          simp [filterStep, hdup, hexc]] at h
        simp only [emittedOf, List.filterMap_cons] at h
        exact fun hk =>
          ih _ t2 h (List.mem_cons_of_mem _ hk)
      · rw [show filterStep excl done t
            = (taskString (clearFrag t) :: done,
                ⟨.emitted (clearFrag t), true⟩) by
          simp [filterStep, hdup, hexc]] at h
        simp only [emittedOf, List.filterMap_cons] at h
        rcases List.mem_cons.mp h with rfl | h2
        · exact hdup
        · exact fun hk => ih _ t2 h2 (List.mem_cons_of_mem _ hk)

theorem emitted_pairwise_aux (excl : List URL) (ts : List Task) :
    ∀ done, (emittedOf (runFilterAux excl done ts)).Pairwise
      (fun a b => taskString a ≠ taskString b) := by
  induction ts with
  | nil =>
    intro done
    simp [runFilterAux, emittedOf]
  | cons t ts ih =>
    intro done
    rw [runFilterAux]
    by_cases hdup : taskString (clearFrag t) ∈ done
    · rw [show filterStep excl done t
          = (done, ⟨.rejected (clearFrag t) "already done", false⟩) by
        simp [filterStep, hdup]]
      simp only [emittedOf, List.filterMap_cons]
      exact ih done
    · by_cases hexc : (excl.any fun e => URLIsSubpath e (clearFrag t).url) = true
      · rw [show filterStep excl done t
            = (taskString (clearFrag t) :: done,
                ⟨.rejected (clearFrag t) "excluded", true⟩) by
          simp [filterStep, hdup, hexc]]
        simp only [emittedOf, List.filterMap_cons]
        exact ih _
      · rw [show filterStep excl done t
            = (taskString (clearFrag t) :: done,
                ⟨.emitted (clearFrag t), true⟩) by
          simp [filterStep, hdup, hexc]]
        simp only [emittedOf, List.filterMap_cons]
        refine List.Pairwise.cons ?_ (ih _)
        intro b hb heq
        exact mem_emitted_not_done excl ts _ b hb (heq ▸ List.mem_cons_self _ _)

theorem count_split_aux (excl : List URL) (ts : List Task) :
    ∀ done, queueDoneCalls (runFilterAux excl done ts)
      + (emittedOf (runFilterAux excl done ts)).length = ts.length := by
  induction ts with
  | nil =>
    intro done
    simp [runFilterAux, emittedOf, queueDoneCalls]
  | cons t ts ih =>
    intro done
    rw [runFilterAux]
    by_cases hdup : taskString (clearFrag t) ∈ done
    · rw [show filterStep excl done t
          = (done, ⟨.rejected (clearFrag t) "already done", false⟩) by
        simp [filterStep, hdup]]
      simp only [emittedOf, queueDoneCalls, List.filterMap_cons, List.filter_cons,
        List.length_cons]
      have := ih done
      simp only [emittedOf, queueDoneCalls] at this
      simp
      omega
    · by_cases hexc : (excl.any fun e => URLIsSubpath e (clearFrag t).url) = true
      · rw [show filterStep excl done t
            = (taskString (clearFrag t) :: done,
                ⟨.rejected (clearFrag t) "excluded", true⟩) by
          simp [filterStep, hdup, hexc]]
        simp only [emittedOf, queueDoneCalls, List.filterMap_cons, List.filter_cons,
          List.length_cons]
        have := ih (taskString (clearFrag t) :: done)
        simp only [emittedOf, queueDoneCalls] at this
        simp
        omega
      · rw [show filterStep excl done t
            = (taskString (clearFrag t) :: done,
                ⟨.emitted (clearFrag t), true⟩) by
          simp [filterStep, hdup, hexc]]
        simp only [emittedOf, queueDoneCalls, List.filterMap_cons, List.filter_cons,
          List.length_cons]
        have := ih (taskString (clearFrag t) :: done)
        simp only [emittedOf, queueDoneCalls] at this
        simp
        omega

/-! ## Claim C3: the filter forwards each canonical key at most once -/

/-- C3: within one filter run the forwarded tasks have pairwise
distinct canonical keys (the task's string form after the fragment is
cleared), so two input tasks with the same key are forwarded at most
once; moreover the run produces exactly one step per input task and the
number of QueueDone(1) calls plus the number of forwarded tasks equals
the number of input tasks (each non-forwarded task is counted exactly
once). -/
theorem runFilter_dedup (excl : List URL) (ts : List Task) :
    ((emittedOf (runFilter excl ts)).Pairwise
        fun a b => taskString a ≠ taskString b)
      ∧ (runFilter excl ts).length = ts.length
      ∧ queueDoneCalls (runFilter excl ts)
          + (emittedOf (runFilter excl ts)).length = ts.length :=
  ⟨emitted_pairwise_aux excl ts [], runFilterAux_length excl [] ts,
    count_split_aux excl ts []⟩

/-! ## Claim C9: keys are recorded before the exclusion check -/

/-- C9: the filter records a task's canonical key before evaluating
exclusions, so whatever happened to an earlier task with the same key
(even rejection by an exclusion), every later task with that key is
rejected with reason "already done", with the exclusion list not
consulted and nothing emitted for it. -/
theorem runFilter_duplicate_rejected (excl : List URL) (pre mid post : List Task)
    (t t2 : Task)
    (hkey : taskString (clearFrag t) = taskString (clearFrag t2)) :
    (runFilter excl (pre ++ t :: mid ++ t2 :: post))[pre.length + 1 + mid.length]?
      = some ⟨.rejected (clearFrag t2) "already done", false⟩ := by
  unfold runFilter
  have hsplitlist : pre ++ t :: mid ++ t2 :: post
      = (pre ++ t :: mid) ++ (t2 :: post) := by simp
  rw [hsplitlist, runFilterAux_append]
  have hlen : (runFilterAux excl [] (pre ++ t :: mid)).length
      = pre.length + 1 + mid.length := by
    rw [runFilterAux_length]
    simp only [List.length_append, List.length_cons]
    omega
  rw [List.getElem?_append_right hlen.le, hlen, Nat.sub_self]
  have hk : taskString (clearFrag t2) ∈ doneAfter excl [] (pre ++ t :: mid) := by
    rw [← hkey, doneAfter_append]
    rw [show doneAfter excl (doneAfter excl [] pre) (t :: mid)
        = doneAfter excl (filterStep excl (doneAfter excl [] pre) t).1 mid from rfl]
    exact doneAfter_mono excl mid _ _ (filterStep_key_mem excl _ t)
  rw [runFilterAux]
  rw [show filterStep excl (doneAfter excl [] (pre ++ t :: mid)) t2
      = (doneAfter excl [] (pre ++ t :: mid),
          ⟨.rejected (clearFrag t2) "already done", false⟩) by
    simp [filterStep, hk]]
  simp

/-- C9 witness: a run in which the first copy of the task is rejected
by an exclusion; the second copy is still rejected as "already done"
with the exclusion list unconsulted. -/
theorem runFilter_duplicate_rejected_witness :
    taskString (clearFrag tDup) = taskString (clearFrag tDup)
      ∧ (runFilter [uExclDir] [tDup, tDup])[1]?
          = some ⟨.rejected (clearFrag tDup) "already done", false⟩ :=
  ⟨rfl, runFilter_duplicate_rejected [uExclDir] [] [] [] tDup tDup rfl⟩

end Webborer
